import Mathlib

/-!
Shallow embedding of the TeaLearning notebook
(`src/software/tealayers/tealayer1.0/TeaLearningTutorial/TeaLearning.ipynb`):
the `Tea` constrained spiking layer and the `AdditivePooling` class pooling
layer, together with theorems about the properties stated for them.

Tensor entries are modelled as rationals (the discrete pipeline: rounding,
clipping, matrix multiply, bias add) and reals (the sigmoid training branch).
Matrices are modelled as functions `ℕ → ℕ → ℚ` with explicit dimensions,
Keras shape tuples as `List (Option ℤ)` (`none` models Python's `None` dim).
-/

namespace TeaLearning

/-- Round to nearest, ties to even: the rounding rule of `tf.round` /
`np.round` used throughout the notebook (`tf.round(x)`). -/
def roundEven (x : ℚ) : ℤ :=
  let f := Rat.floor x
  let r := x - f
  if r < 1/2 then f
  else if 1/2 < r then f + 1
  else if f % 2 = 0 then f else f + 1

/-- `K.clip(tf.round(c), 0, 1)`: the effective connection derived from one
connection-parameter entry in `Tea.call` (round to nearest, then clamp to
the closed range `[0,1]`). -/
def effectiveConnection (c : ℚ) : ℚ :=
  min (max ((roundEven c : ℤ) : ℚ) 0) 1

lemma ratFloor_eq_floor (x : ℚ) : Rat.floor x = ⌊x⌋ := by
  rw [Rat.floor_def', Rat.floor_def]

lemma roundEven_zero : roundEven 0 = 0 := by
  unfold roundEven
  simp only [ratFloor_eq_floor]
  norm_num

lemma roundEven_one : roundEven 1 = 1 := by
  unfold roundEven
  simp only [ratFloor_eq_floor]
  norm_num

lemma effectiveConnection_eq_cases (c : ℚ) :
    (1 ≤ roundEven c → effectiveConnection c = 1) ∧
    (roundEven c ≤ 0 → effectiveConnection c = 0) := by
  constructor
  · intro h
    unfold effectiveConnection
    have h1 : (1 : ℚ) ≤ ((roundEven c : ℤ) : ℚ) := by exact_mod_cast h
    have h0 : (0 : ℚ) ≤ ((roundEven c : ℤ) : ℚ) := le_trans (by norm_num) h1
    rw [max_eq_left h0, min_eq_right h1]
  · intro h
    unfold effectiveConnection
    have h1 : ((roundEven c : ℤ) : ℚ) ≤ 0 := by exact_mod_cast h
    rw [max_eq_right h1]
    norm_num

/-- C1: every entry of the effective connection derived in `Tea.call` is 0
or 1; it is 1 iff the rounded parameter is ≥ 1 and 0 iff the rounded
parameter is ≤ 0. -/
theorem effectiveConnection_binary (connections : ℕ → ℕ → ℚ) (i j : ℕ) :
    (effectiveConnection (connections i j) = 0 ∨
      effectiveConnection (connections i j) = 1) ∧
    (effectiveConnection (connections i j) = 1 ↔ 1 ≤ roundEven (connections i j)) ∧
    (effectiveConnection (connections i j) = 0 ↔ roundEven (connections i j) ≤ 0) := by
  set c := connections i j with hc
  have hcases := effectiveConnection_eq_cases c
  rcases le_or_lt (roundEven c) 0 with h0 | hpos
  · have he := hcases.2 h0
    refine ⟨Or.inl he, ?_, ?_⟩
    · rw [he]; constructor
      · intro h; exact absurd h (by norm_num)
      · intro h; omega
    · exact ⟨fun _ => h0, fun _ => he⟩
  · have h1 : 1 ≤ roundEven c := hpos
    have he := hcases.1 h1
    refine ⟨Or.inr he, ?_, ?_⟩
    · exact ⟨fun _ => h1, fun _ => he⟩
    · rw [he]; constructor
      · intro h; exact absurd h (by norm_num)
      · intro h; omega

/-- The weights `Tea.build` allocates: `static_weights` (non-trainable,
from `tea_weight_initializer`), `connections` (trainable), `biases`
(trainable).  Matrices are `(num_inputs, units)`-shaped functions. -/
structure TeaVars where
  static_weights : ℕ → ℕ → ℚ
  connections : ℕ → ℕ → ℚ
  biases : ℕ → ℚ

/-- `connections * self.static_weights` after the round-and-clip of the
connection parameters, as computed inside `Tea.call`. -/
def weighted_connections (v : TeaVars) (i j : ℕ) : ℚ :=
  effectiveConnection (v.connections i j) * v.static_weights i j

/-- The pre-activation potential of output neuron `j` in `Tea.call`:
round the input, dot it with the weighted connections (contracting the
`n` input features), and add the rounded bias (`K.bias_add`). -/
def teaPotential (n : ℕ) (v : TeaVars) (x : ℕ → ℚ) (j : ℕ) : ℚ :=
  (∑ i in Finset.range n, ((roundEven (x i) : ℤ) : ℚ) * weighted_connections v i j)
    + ((roundEven (v.biases j) : ℤ) : ℚ)

/-- `K.sigmoid`, the logistic function used by the training branch. -/
noncomputable def sigmoid (x : ℝ) : ℝ := 1 / (1 + Real.exp (-x))

/-- `Tea.call`: the forward pass of the constrained spiking layer.
`train` selects the `K.in_train_phase` branch: sigmoid of the potential in
training, `cast(potential ≥ 0)` in inference. -/
noncomputable def teaCall (n : ℕ) (train : Bool) (v : TeaVars) (x : ℕ → ℚ)
    (j : ℕ) : ℝ :=
  if train then sigmoid ((teaPotential n v x j : ℚ) : ℝ)
  else if 0 ≤ teaPotential n v x j then 1 else 0

lemma sigmoid_pos (x : ℝ) : 0 < sigmoid x := by
  unfold sigmoid
  have h : (0 : ℝ) < 1 + Real.exp (-x) :=
    lt_trans one_pos (lt_add_of_pos_right 1 (Real.exp_pos (-x)))
  positivity

lemma sigmoid_lt_one (x : ℝ) : sigmoid x < 1 := by
  unfold sigmoid
  have h : (0 : ℝ) < 1 + Real.exp (-x) :=
    lt_trans one_pos (lt_add_of_pos_right 1 (Real.exp_pos (-x)))
  rw [div_lt_one h]
  exact lt_add_of_pos_right 1 (Real.exp_pos (-x))

/-- C2: every element of the training-mode output of `Tea.call` is strictly
between 0 and 1, and every element of the inference-mode output is exactly
0 or exactly 1. -/
theorem teaCall_range (n : ℕ) (v : TeaVars) (x : ℕ → ℚ) (j : ℕ) :
    (0 < teaCall n true v x j ∧ teaCall n true v x j < 1) ∧
    (teaCall n false v x j = 0 ∨ teaCall n false v x j = 1) := by
  refine ⟨⟨?_, ?_⟩, ?_⟩
  · simpa [teaCall] using sigmoid_pos ((teaPotential n v x j : ℚ) : ℝ)
  · simpa [teaCall] using sigmoid_lt_one ((teaPotential n v x j : ℚ) : ℝ)
  · by_cases h : 0 ≤ teaPotential n v x j
    · right; simp [teaCall, h]
    · left; simp [teaCall, h]

/-- C3: in inference mode a potential of exactly 0 produces the output 1
(the threshold comparison is inclusive); in particular, on an all-zero
input, if every bias rounds to 0 then every inference output is 1. -/
theorem teaCall_zero_potential_spikes :
    (∀ (n : ℕ) (v : TeaVars) (x : ℕ → ℚ) (j : ℕ),
      teaPotential n v x j = 0 → teaCall n false v x j = 1) ∧
    (∀ (n : ℕ) (v : TeaVars) (j : ℕ),
      (∀ k, roundEven (v.biases k) = 0) →
      teaCall n false v (fun _ => 0) j = 1) := by
  have hzero : ∀ (n : ℕ) (v : TeaVars) (x : ℕ → ℚ) (j : ℕ),
      teaPotential n v x j = 0 → teaCall n false v x j = 1 := by
    intro n v x j h
    simp [teaCall, h]
  refine ⟨hzero, ?_⟩
  intro n v j hb
  apply hzero
  unfold teaPotential
  simp [roundEven_zero, hb j]

/-- Witness for C3 at a concrete layer: one input feature, connection
parameter 3/4, zero bias, all-zero input. -/
theorem teaCall_zero_potential_spikes_witness :
    roundEven ((0 : ℚ)) = 0 ∧
    teaCall 1 false
      ⟨fun i _ => if i % 2 = 0 then 1 else -1, fun _ _ => 3/4, fun _ => 0⟩
      (fun _ => 0) 0 = 1 := by
  refine ⟨roundEven_zero, ?_⟩
  exact teaCall_zero_potential_spikes.2 1
    ⟨fun i _ => if i % 2 = 0 then 1 else -1, fun _ _ => 3/4, fun _ => 0⟩
    0 (fun _ => roundEven_zero)

/-- `tea_weight_initializer`: builds the fixed structural weight matrix,
row `axon_num` filled with 1 when `axon_num` is even and -1 when odd. -/
def tea_weight_initializer (shape : ℕ × ℕ) : List (List ℚ) :=
  (List.range shape.1).map fun axon_num =>
    (List.range shape.2).map fun _ => if axon_num % 2 = 0 then (1 : ℚ) else -1

/-- C4: for every shape `(a, b)` with `a, b > 0`, entry `(i, j)` of the
structural weight matrix is +1 when row `i` is even and -1 when it is odd;
the matrix is produced by a pure function of the shape alone. -/
theorem tea_weight_initializer_alternating (a b i j : ℕ)
    (ha : 0 < a) (hb : 0 < b) (hi : i < a) (hj : j < b) :
    ((tea_weight_initializer (a, b)).getD i []).getD j 0
      = if i % 2 = 0 then (1 : ℚ) else -1 := by
  unfold tea_weight_initializer
  simp [List.getD_eq_getElem?_getD, List.getElem?_range, hi, hj]

/-- Witness for C4 at shape (2, 3), entry (1, 0). -/
theorem tea_weight_initializer_alternating_witness :
    ((tea_weight_initializer (2, 3)).getD 1 []).getD 0 0 = -1 := by
  have h := tea_weight_initializer_alternating 2 3 1 0
    (by norm_num) (by norm_num) (by norm_num) (by norm_num)
  simpa using h

/-- `Tea.call` threaded through the layer's stored weights: the method only
binds locals (`x`, `connections`, `weighted_connections`, `output`,
`biases`) and never assigns any `self` attribute, so the embedding returns
the weight record as the call received it. -/
noncomputable def teaCallWithState (n : ℕ) (train : Bool) (v : TeaVars)
    (x : ℕ → ℚ) : (ℕ → ℝ) × TeaVars :=
  ((fun j => teaCall n train v x j), v)

/-- C9: a forward evaluation of `Tea.call` leaves `connections`, `biases`
and `static_weights` exactly as they were before the call. -/
theorem teaCall_preserves_params (n : ℕ) (train : Bool) (v : TeaVars)
    (x : ℕ → ℚ) :
    (teaCallWithState n train v x).2.connections = v.connections ∧
    (teaCallWithState n train v x).2.biases = v.biases ∧
    (teaCallWithState n train v x).2.static_weights = v.static_weights ∧
    (teaCallWithState n train v x).2 = v :=
  ⟨rfl, rfl, rfl, rfl⟩

/-- The tick-summing branch of `AdditivePooling.call` (`K.sum(x, axis=1)`):
collapses the tick axis of a rank-3 input into per-neuron spike counts. -/
def additivePoolingSumTicks (ticks : ℕ) (x : ℕ → ℕ → ℕ → ℚ) (b i : ℕ) : ℚ :=
  ∑ t in Finset.range ticks, x b t i

/-- `AdditivePooling.call` on a rank-2 input: reshape the `num_inputs`
neurons of each batch row into `(num_inputs / num_classes, num_classes)`
(row-major, so position `(p, c)` holds neuron `p * num_classes + c`) and
sum over the first of those two axes (`tf.reduce_sum(output, 1)`). -/
def additivePoolingCallNoTicks (num_classes num_inputs : ℕ)
    (x : ℕ → ℕ → ℚ) (b c : ℕ) : ℚ :=
  ∑ p in Finset.range (num_inputs / num_classes), x b (p * num_classes + c)

/-- `AdditivePooling.call` on a rank-3 input (`len(x.shape) >= 3`): sum
the tick axis first, then pool the neurons per class. -/
def additivePoolingCallTicks (num_classes num_inputs ticks : ℕ)
    (x : ℕ → ℕ → ℕ → ℚ) (b c : ℕ) : ℚ :=
  additivePoolingCallNoTicks num_classes num_inputs
    (additivePoolingSumTicks ticks x) b c

/-- `AdditivePooling.compute_output_shape`: set the trailing dimension to
`num_classes`, then delete dimension 1 when the rank is at least 3 (the
tick axis was summed away).  `none` models a Python `IndexError` on an
empty shape. -/
def additivePoolingComputeOutputShape (num_classes : ℤ)
    (s : List (Option ℤ)) : Option (List (Option ℤ)) :=
  if s.isEmpty then none
  else
    let output_shape := s.dropLast ++ [some num_classes]
    if 3 ≤ output_shape.length then some (output_shape.eraseIdx 1)
    else some output_shape

lemma additivePooling_class_assignment (nC nIn : ℕ) (x : ℕ → ℕ → ℚ)
    (b c : ℕ) (hdvd : nC ∣ nIn) (hc : c < nC) :
    additivePoolingCallNoTicks nC nIn x b c
      = ∑ i in (Finset.range nIn).filter (fun i => i % nC = c), x b i := by
  have himg : ((Finset.range (nIn / nC)).image fun p => p * nC + c)
      = (Finset.range nIn).filter (fun i => i % nC = c) := by
    ext i
    simp only [Finset.mem_image, Finset.mem_filter, Finset.mem_range]
    constructor
    · rintro ⟨p, hp, rfl⟩
      refine ⟨?_, ?_⟩
      · calc p * nC + c < p * nC + nC := by omega
          _ = (p + 1) * nC := by ring
          _ ≤ (nIn / nC) * nC := Nat.mul_le_mul_right _ (by omega)
          _ = nIn := Nat.div_mul_cancel hdvd
      · rw [mul_comm p nC, Nat.mul_add_mod]
        exact Nat.mod_eq_of_lt hc
    · rintro ⟨hi, hmod⟩
      refine ⟨i / nC, Nat.div_lt_div_of_lt_of_dvd hdvd hi, ?_⟩
      have h2 := Nat.div_add_mod i nC
      rw [hmod] at h2
      rw [mul_comm]
      exact h2
  rw [additivePoolingCallNoTicks, ← himg, Finset.sum_image]
  intro p _ q _ hpq
  have hnC : 0 < nC := by omega
  exact Nat.eq_of_mul_eq_mul_right hnC (by omega)

/-- C5: `AdditivePooling.call` sums the tick axis first on rank-3 input
and then sums exactly the neurons congruent to `c` modulo `num_classes`
into class `c`; concretely, with 10 classes an all-ones `(1, 250)` input
pools to 25 per class with output shape `(1, 10)`, and a `(2, 4, 10)`
input with 5 classes has output shape `(2, 5)`. -/
theorem additivePooling_call_spec :
    (∀ (nC nIn : ℕ) (x : ℕ → ℕ → ℚ) (b c : ℕ), nC ∣ nIn → c < nC →
      additivePoolingCallNoTicks nC nIn x b c
        = ∑ i in (Finset.range nIn).filter (fun i => i % nC = c), x b i) ∧
    (∀ (nC nIn ticks : ℕ) (x : ℕ → ℕ → ℕ → ℚ) (b c : ℕ),
      additivePoolingCallTicks nC nIn ticks x b c
        = additivePoolingCallNoTicks nC nIn
            (fun b' i => ∑ t in Finset.range ticks, x b' t i) b c) ∧
    (∀ b c : ℕ, additivePoolingCallNoTicks 10 250 (fun _ _ => 1) b c = 25) ∧
    additivePoolingComputeOutputShape 10 [some 1, some 250]
      = some [some 1, some 10] ∧
    additivePoolingComputeOutputShape 5 [some 2, some 4, some 10]
      = some [some 2, some 5] := by
  refine ⟨?_, ?_, ?_, by decide, by decide⟩
  · intro nC nIn x b c hdvd hc
    exact additivePooling_class_assignment nC nIn x b c hdvd hc
  · intro nC nIn ticks x b c
    rfl
  · intro b c
    unfold additivePoolingCallNoTicks
    norm_num

/-- Witness for C5 at class 3 of 5 classes over 10 neurons. -/
theorem additivePooling_call_spec_witness :
    (5 : ℕ) ∣ 10 ∧ (3 : ℕ) < 5 ∧
    additivePoolingCallNoTicks 5 10 (fun _ i => (i : ℚ)) 0 3
      = ∑ i in (Finset.range 10).filter (fun i => i % 5 = 3),
          ((i : ℚ)) := by
  refine ⟨by norm_num, by norm_num, ?_⟩
  exact additivePooling_call_spec.1 5 10 (fun _ i => (i : ℚ)) 0 3
    (by norm_num) (by norm_num)

/-- `Tea.compute_output_shape`: asserts a shape of rank at least 2 with a
truthy trailing dimension (not `None`, not 0), then replaces the trailing
dimension by `units`.  `none` models a failed `assert`. -/
def teaComputeOutputShape (units : ℤ) (s : List (Option ℤ)) :
    Option (List (Option ℤ)) :=
  if 2 ≤ s.length then
    match s.getLast? with
    | some (some d) => if d ≠ 0 then some (s.dropLast ++ [some units]) else none
    | _ => none
  else none

/-- C6 counterexample: `AdditivePooling.compute_output_shape` with 5
classes on shape `(2, 4, 10)` yields `(2, 5)`, not the shape obtained by
replacing only the trailing dimension, which would be `(2, 4, 5)`: the
tick dimension is deleted as well. -/
theorem computeOutputShape_not_only_trailing :
    additivePoolingComputeOutputShape 5 [some 2, some 4, some 10]
      = some [some 2, some 5] ∧
    additivePoolingComputeOutputShape 5 [some 2, some 4, some 10]
      ≠ some ([some 2, some 4, some 10].dropLast ++ [some 5]) := by
  exact ⟨by decide, by decide⟩

/-- C6 amended: `Tea.compute_output_shape` replaces only the trailing
dimension and, whenever `units ≠ 0` (so its result passes the
trailing-dimension assert), is idempotent; `AdditivePooling`'s version
replaces the trailing dimension with `num_classes` on rank-2 shapes but
deletes dimension 1 as well on rank-3 shapes, and reapplying it to its
own result yields the result again. -/
theorem computeOutputShape_trailing_and_idempotent :
    (∀ (units : ℤ) (s r : List (Option ℤ)),
      teaComputeOutputShape units s = some r →
      r = s.dropLast ++ [some units] ∧
      (units ≠ 0 → teaComputeOutputShape units r = some r)) ∧
    (∀ (nC : ℤ) (a b c : Option ℤ),
      additivePoolingComputeOutputShape nC [a, b] = some [a, some nC] ∧
      additivePoolingComputeOutputShape nC [a, b, c] = some [a, some nC] ∧
      additivePoolingComputeOutputShape nC [a, some nC]
        = some [a, some nC]) := by
  constructor
  · intro units s r hr
    unfold teaComputeOutputShape at hr
    by_cases hlen : 2 ≤ s.length
    · rw [if_pos hlen] at hr
      rcases hd : s.getLast? with _ | d
      · rw [hd] at hr; exact absurd hr (by simp)
      rcases d with _ | d
      · rw [hd] at hr; exact absurd hr (by simp)
      rw [hd] at hr
      dsimp only at hr
      by_cases hd0 : d ≠ 0
      · rw [if_pos hd0] at hr
        have hreq : r = s.dropLast ++ [some units] := by
          exact (Option.some_injective _ hr).symm
        refine ⟨hreq, ?_⟩
        intro hu
        have hslen : s ≠ [] := by
          intro h; rw [h] at hlen; simp at hlen
        have hrlen : r.length = s.length := by
          rw [hreq]
          simp [List.length_dropLast]
          omega
        unfold teaComputeOutputShape
        rw [if_pos (by omega)]
        have hrl : r.getLast? = some (some units) := by
          rw [hreq]
          simp
        rw [hrl]
        dsimp only
        rw [if_pos hu, hreq]
        simp
      · rw [if_neg hd0] at hr; exact absurd hr (by simp)
    · rw [if_neg hlen] at hr; exact absurd hr (by simp)
  · intro nC a b c
    refine ⟨?_, ?_, ?_⟩ <;> simp [additivePoolingComputeOutputShape]

/-- Witness for C6 at `units = 7` on shape `(1, 5)`. -/
theorem computeOutputShape_trailing_and_idempotent_witness :
    teaComputeOutputShape 7 [some 1, some 5] = some [some 1, some 7] ∧
    teaComputeOutputShape 7 [some 1, some 7] = some [some 1, some 7] := by
  have h := computeOutputShape_trailing_and_idempotent.1 7
    [some 1, some 5] [some 1, some 7] (by decide)
  exact ⟨by decide, h.2 (by decide)⟩

/-- `Tea.__init__`: records `units` and sets `uses_learning_phase`; it
contains no validation, so the embedding's fallible constructor always
returns `ok`. -/
structure TeaLayer where
  units : ℤ
  uses_learning_phase : Bool

def teaInit (units : ℤ) : Except String TeaLayer :=
  .ok { units := units, uses_learning_phase := true }

/-- `AdditivePooling.__init__`: records `num_classes`, sets `num_inputs`
to `None`; again no validation. -/
structure AdditivePoolingLayer where
  num_classes : ℤ
  num_inputs : Option ℤ

def additivePoolingInit (num_classes : ℤ) : Except String AdditivePoolingLayer :=
  .ok { num_classes := num_classes, num_inputs := none }

/-- C7 counterexample: both constructors succeed on the non-positive
counts 0 and -3, so construction does not fail on a non-positive count. -/
theorem construct_accepts_nonpositive :
    teaInit 0 = .ok { units := 0, uses_learning_phase := true } ∧
    teaInit (-3) = .ok { units := -3, uses_learning_phase := true } ∧
    additivePoolingInit 0 = .ok { num_classes := 0, num_inputs := none } ∧
    additivePoolingInit (-3) = .ok { num_classes := -3, num_inputs := none } :=
  ⟨rfl, rfl, rfl, rfl⟩

/-- C7 amended: `Tea.__init__` and `AdditivePooling.__init__` record the
given count without validating it and never fail, for every integer
argument. -/
theorem construct_records_without_validation (u : ℤ) :
    teaInit u = .ok { units := u, uses_learning_phase := true } ∧
    additivePoolingInit u = .ok { num_classes := u, num_inputs := none } :=
  ⟨rfl, rfl⟩

/-- `AdditivePooling.build`: asserts rank at least 2 and a trailing
dimension divisible by `num_classes`, then stores the trailing dimension
in `num_inputs`.  A `None` trailing dimension raises (`TypeError` in
Python), and `num_classes = 0` raises `ZeroDivisionError` in `%`. -/
def additivePoolingBuild (l : AdditivePoolingLayer) (s : List (Option ℤ)) :
    Except String AdditivePoolingLayer :=
  if 2 ≤ s.length then
    match s.getLast? with
    | some (some v) =>
        if l.num_classes = 0 then .error "ZeroDivisionError"
        else if v % l.num_classes = 0 then .ok { l with num_inputs := some v }
        else .error "AssertionError"
    | _ => .error "TypeError"
  else .error "AssertionError"

/-- C8: for a positive class count and a defined trailing dimension `v`,
`AdditivePooling.build` succeeds (recording `num_inputs = v`, from which
the layer later derives `neuronsPerClass = v / num_classes`) exactly when
the rank is at least 2 and `num_classes` divides `v`; otherwise it
fails. -/
theorem additivePoolingBuild_divisibility (l : AdditivePoolingLayer)
    (s : List (Option ℤ)) (v : ℤ) (hpos : 0 < l.num_classes)
    (hlast : s.getLast? = some (some v)) :
    (additivePoolingBuild l s = .ok { l with num_inputs := some v }
      ↔ (2 ≤ s.length ∧ l.num_classes ∣ v)) ∧
    (¬(2 ≤ s.length ∧ l.num_classes ∣ v) →
      ∃ e, additivePoolingBuild l s = .error e) := by
  have hne : l.num_classes ≠ 0 := by omega
  have hdvd_iff : v % l.num_classes = 0 ↔ l.num_classes ∣ v :=
    ⟨Int.dvd_of_emod_eq_zero, Int.emod_eq_zero_of_dvd⟩
  unfold additivePoolingBuild
  rw [hlast]
  dsimp only
  by_cases hlen : 2 ≤ s.length
  · rw [if_pos hlen, if_neg hne]
    by_cases hmod : v % l.num_classes = 0
    · rw [if_pos hmod]
      exact ⟨⟨fun _ => ⟨hlen, hdvd_iff.mp hmod⟩, fun _ => rfl⟩,
        fun h => absurd ⟨hlen, hdvd_iff.mp hmod⟩ h⟩
    · rw [if_neg hmod]
      refine ⟨⟨fun h => absurd h (by simp), fun h => ?_⟩,
        fun _ => ⟨"AssertionError", rfl⟩⟩
      exact absurd (hdvd_iff.mpr h.2) hmod
  · rw [if_neg hlen]
    refine ⟨⟨fun h => absurd h (by simp), fun h => absurd h.1 hlen⟩,
      fun _ => ⟨"AssertionError", rfl⟩⟩

/-- Witness for C8: 5 classes, shape `(1, 10)`. -/
theorem additivePoolingBuild_divisibility_witness :
    additivePoolingBuild { num_classes := 5, num_inputs := none }
        [some 1, some 10]
      = .ok { num_classes := 5, num_inputs := some 10 } := by
  exact (additivePoolingBuild_divisibility
    { num_classes := 5, num_inputs := none } [some 1, some 10] 10
    (by norm_num) (by decide)).1.mpr ⟨by decide, by decide⟩

lemma effectiveConnection_zero_or_one (c : ℚ) :
    effectiveConnection c = 0 ∨ effectiveConnection c = 1 := by
  rcases le_or_lt (roundEven c) 0 with h | h
  · exact Or.inl ((effectiveConnection_eq_cases c).2 h)
  · exact Or.inr ((effectiveConnection_eq_cases c).1 h)

lemma effectiveConnection_intCast (c : ℚ) :
    effectiveConnection c = ((min (max (roundEven c) 0) 1 : ℤ) : ℚ) := by
  unfold effectiveConnection
  push_cast
  rfl

lemma roundEven_of_zero_or_one {q : ℚ} (h : q = 0 ∨ q = 1) :
    roundEven q = 0 ∨ roundEven q = 1 := by
  rcases h with h | h
  · left; rw [h]; exact roundEven_zero
  · right; rw [h]; exact roundEven_one

lemma weighted_term_intCast (v : TeaVars) (x : ℕ → ℚ) (i j : ℕ)
    (hw : v.static_weights i j = if i % 2 = 0 then 1 else -1) :
    ((roundEven (x i) : ℤ) : ℚ) * weighted_connections v i j
      = ((roundEven (x i) * (min (max (roundEven (v.connections i j)) 0) 1
          * (if i % 2 = 0 then 1 else -1)) : ℤ) : ℚ) := by
  unfold weighted_connections
  rw [effectiveConnection_intCast, hw]
  by_cases hik : i % 2 = 0
  · rw [if_pos hik, if_pos hik]
    push_cast
    ring
  · rw [if_neg hik, if_neg hik]
    push_cast
    ring

lemma weighted_term_abs_le (v : TeaVars) (x : ℕ → ℚ) (i j : ℕ)
    (hx : x i = 0 ∨ x i = 1) :
    |roundEven (x i) * (min (max (roundEven (v.connections i j)) 0) 1
        * (if i % 2 = 0 then 1 else -1))| ≤ 1 := by
  set m := min (max (roundEven (v.connections i j)) 0) 1 with hm
  have hm0 : 0 ≤ m := le_min (le_max_right _ _) (by norm_num)
  have hm1 : m ≤ 1 := min_le_right _ _
  rcases roundEven_of_zero_or_one hx with h | h
  · rw [h, zero_mul, abs_zero]; norm_num
  · rw [h, one_mul]
    by_cases hik : i % 2 = 0
    · rw [if_pos hik, mul_one, abs_le]
      omega
    · rw [if_neg hik, mul_neg_one, abs_neg, abs_le]
      omega

/-- C10: with the alternating-sign structural weights, every entry of the
effective weight matrix `EffectiveConnection * StructuralWeight` is -1, 0
or 1, and on a `{0,1}`-valued input vector of length `n` the per-neuron
potential of `Tea.call` is an integer between `-(n + |roundedLeak|)` and
`n + |roundedLeak|`. -/
theorem teaPotential_integer_bounds (n : ℕ) (v : TeaVars) (x : ℕ → ℚ)
    (j : ℕ)
    (hw : ∀ i k, v.static_weights i k = if i % 2 = 0 then 1 else -1)
    (hx : ∀ i, x i = 0 ∨ x i = 1) :
    (∀ i k, weighted_connections v i k = -1 ∨
      weighted_connections v i k = 0 ∨ weighted_connections v i k = 1) ∧
    ∃ z : ℤ, teaPotential n v x j = (z : ℚ) ∧
      -((n : ℤ) + |roundEven (v.biases j)|) ≤ z ∧
      z ≤ (n : ℤ) + |roundEven (v.biases j)| := by
  constructor
  · intro i k
    unfold weighted_connections
    rcases effectiveConnection_zero_or_one (v.connections i k) with h | h
    · rw [h, zero_mul]
      right; left; rfl
    · rw [h, one_mul, hw i k]
      by_cases hik : i % 2 = 0
      · right; right; rw [if_pos hik]
      · left; rw [if_neg hik]
  · refine ⟨(∑ i in Finset.range n,
        roundEven (x i) * (min (max (roundEven (v.connections i j)) 0) 1
          * (if i % 2 = 0 then 1 else -1))) + roundEven (v.biases j),
      ?_, ?_, ?_⟩
    · unfold teaPotential
      rw [Finset.sum_congr rfl (fun i _ => weighted_term_intCast v x i j (hw i j))]
      push_cast
      ring
    all_goals {
      have habs : |∑ i in Finset.range n,
          roundEven (x i) * (min (max (roundEven (v.connections i j)) 0) 1
            * (if i % 2 = 0 then 1 else -1))| ≤ (n : ℤ) := by
        calc |∑ i in Finset.range n,
            roundEven (x i) * (min (max (roundEven (v.connections i j)) 0) 1
              * (if i % 2 = 0 then 1 else -1))|
            ≤ ∑ i in Finset.range n,
              |roundEven (x i) * (min (max (roundEven (v.connections i j)) 0) 1
                * (if i % 2 = 0 then 1 else -1))| :=
              Finset.abs_sum_le_sum_abs _ _
          _ ≤ ∑ _i in Finset.range n, (1 : ℤ) :=
              Finset.sum_le_sum (fun i _ => weighted_term_abs_le v x i j (hx i))
          _ = (n : ℤ) := by simp
      have h1 := abs_le.mp habs
      have h2 := neg_abs_le (roundEven (v.biases j))
      have h3 := le_abs_self (roundEven (v.biases j))
      linarith
    }

/-- Witness for C10: two all-ones inputs through unit connection
parameters and zero leak. -/
theorem teaPotential_integer_bounds_witness :
    ((1 : ℚ) = 0 ∨ (1 : ℚ) = 1) ∧
    (∃ z : ℤ, teaPotential 2
        ⟨fun i _ => if i % 2 = 0 then 1 else -1, fun _ _ => 1, fun _ => 0⟩
        (fun _ => 1) 0 = (z : ℚ) ∧
      -((2 : ℤ) + |roundEven ((0 : ℚ))|) ≤ z ∧
      z ≤ (2 : ℤ) + |roundEven ((0 : ℚ))|) := by
  refine ⟨Or.inr rfl, ?_⟩
  exact (teaPotential_integer_bounds 2
    ⟨fun i _ => if i % 2 = 0 then 1 else -1, fun _ _ => 1, fun _ => 0⟩
    (fun _ => 1) 0 (fun _ _ => rfl) (fun _ => Or.inr rfl)).2

end TeaLearning
